import Mathlib

/-!
Shallow embedding of `src/librustc/dep_graph/prev.rs` (`PreviousDepGraph`).

Modelling conventions:
- `DepNode` (the opaque identity), `Fingerprint` and `DepNodeState` are opaque
  payloads with decidable equality; they are modelled as `Nat`.
- `DepNodeIndex` / `SerializedDepNodeIndex` are dense indices; modelled as `Nat`.
- `FxHashMap` is modelled as an association list (`List (Nat × Nat)`) with the
  map's observable semantics: `insert` replaces the value of an existing key and
  appends a fresh key, `collect` folds inserts left to right (so a later pair
  with the same key overwrites the earlier value), lookup returns the unique
  entry for a key, `len` is the number of entries.
- `u32` casts (`len as u32`) are modelled as `% 4294967296`.
- Rust panics (indexing a missing map key, out-of-bounds vector indexing) are
  modelled by `Option`-returning functions yielding `none`.
-/

set_option maxRecDepth 8000

/-- Size of the `u32` value space; `len as u32` is modelled as `len % U32MOD`. -/
def U32MOD : Nat := 4294967296

/-- Modelled from the spec: a record of the serialized previous graph
(`SerializedDepNode`, defined outside this crate excerpt), holding an identity,
a fingerprint and the ordered list of edge-target indices. -/
structure SerializedDepNode where
  node : Nat
  fingerprint : Nat
  edges : List Nat
  deriving DecidableEq, Repr

/-- Modelled from the spec: the construction input (`SerializedDepGraph`,
defined outside this crate excerpt): an ordered list of records plus a
validity-state sequence addressed by construction-time position. -/
structure SerializedDepGraph where
  nodes : List SerializedDepNode
  state : List Nat
  deriving DecidableEq, Repr

/-- HashMap-model insert: replace the value if the key is present, append a new
entry otherwise. -/
def hmInsert : List (Nat × Nat) → Nat × Nat → List (Nat × Nat)
  | [], kv => [kv]
  | p :: ps, kv =>
    if p.1 = kv.1 then (p.1, kv.2) :: ps else p :: hmInsert ps kv

/-- HashMap-model `collect()`: fold inserts left to right; a later pair with
the same key overwrites the earlier value. -/
def hmCollect (ps : List (Nat × Nat)) : List (Nat × Nat) :=
  ps.foldl hmInsert []

/-- HashMap-model lookup (`get`). -/
def hmGet? (m : List (Nat × Nat)) (k : Nat) : Option Nat :=
  (m.find? (fun p => p.1 == k)).map Prod.snd

/-- The pair sequence `graph.nodes.iter_enumerated().map(|(idx, d)| (d.node, idx))`,
with `i` the index of the first element. -/
def enumPairs : List Nat → Nat → List (Nat × Nat)
  | [], _ => []
  | a :: rest, i => (a, i) :: enumPairs rest (i + 1)

/-- Index of the last occurrence of `d` in `l`, if any. This is the value the
hashmap model associates to key `d` after collecting enumerated pairs. -/
def lastIdxOf : List Nat → Nat → Option Nat
  | [], _ => none
  | a :: rest, d =>
    match lastIdxOf rest d with
    | some i => some (i + 1)
    | none => if a = d then some 0 else none

/-- Value of the last pair with key `k` in a pair list, if any. -/
def lastVal : List (Nat × Nat) → Nat → Option Nat
  | [], _ => none
  | p :: ps, k =>
    match lastVal ps k with
    | some v => some v
    | none => if p.1 = k then some p.2 else none

/-- One iteration of the edge-flattening loop in `PreviousDepGraph::new`:
record the cursor as `start` (cast to `u32`), append this record's edges to the
shared flat array, record the new cursor as the range end (cast to `u32`). -/
def edgeStep (acc : List Nat × List (Nat × Nat)) (d : SerializedDepNode) :
    List Nat × List (Nat × Nat) :=
  let start := acc.1.length % U32MOD
  let data := acc.1 ++ d.edges
  let stop := data.length % U32MOD
  (data, acc.2 ++ [(start, stop)])

/-- The snapshot structure `PreviousDepGraph` with its six fields. -/
structure PreviousDepGraph where
  index : List (Nat × Nat)
  nodes : List Nat
  fingerprints : List Nat
  edge_list_indices : List (Nat × Nat)
  edge_list_data : List Nat
  state : List Nat
  deriving DecidableEq, Repr

/-- `PreviousDepGraph::new`: build the identity-to-index map by collecting
`(d.node, idx)` pairs, the per-index `fingerprints` and `nodes` vectors by
mapping over the records, the flat adjacency encoding by the linear loop, and
copy the state vector (`convert_index_type` only changes the index type). -/
def PreviousDepGraph.new (graph : SerializedDepGraph) : PreviousDepGraph :=
  let ed := graph.nodes.foldl edgeStep ([], [])
  { index := hmCollect (enumPairs (graph.nodes.map SerializedDepNode.node) 0)
    nodes := graph.nodes.map SerializedDepNode.node
    fingerprints := graph.nodes.map SerializedDepNode.fingerprint
    edge_list_indices := ed.2
    edge_list_data := ed.1
    state := graph.state }

/-- `edge_targets_from`: look up the stored `(start, end)` pair and return the
slice `edge_list_data[start..end]`; `none` from the lookup models the panic on
an out-of-range index. -/
def PreviousDepGraph.edge_targets_from (g : PreviousDepGraph) (i : Nat) : List Nat :=
  match g.edge_list_indices.get? i with
  | some t => (g.edge_list_data.drop t.1).take (t.2 - t.1)
  | none => []

/-- `index_to_node`: `self.nodes[dep_node_index]`; `none` models the panic. -/
def PreviousDepGraph.index_to_node (g : PreviousDepGraph) (i : Nat) : Option Nat :=
  g.nodes.get? i

/-- `node_to_index`: `self.index[dep_node]`; `none` models the panic on a
missing key. -/
def PreviousDepGraph.node_to_index (g : PreviousDepGraph) (d : Nat) : Option Nat :=
  hmGet? g.index d

/-- `node_to_index_opt`: `self.index.get(dep_node).cloned()`. -/
def PreviousDepGraph.node_to_index_opt (g : PreviousDepGraph) (d : Nat) : Option Nat :=
  hmGet? g.index d

/-- `fingerprint_of`: `self.index.get(dep_node).map(|&i| self.fingerprints[i])`. -/
def PreviousDepGraph.fingerprint_of (g : PreviousDepGraph) (d : Nat) : Option Nat :=
  (hmGet? g.index d).bind (fun i => g.fingerprints.get? i)

/-- `fingerprint_by_index`: `self.fingerprints[dep_node_index]`; `none` models
the panic. -/
def PreviousDepGraph.fingerprint_by_index (g : PreviousDepGraph) (i : Nat) : Option Nat :=
  g.fingerprints.get? i

/-- `node_count`: `self.index.len()`. -/
def PreviousDepGraph.node_count (g : PreviousDepGraph) : Nat :=
  g.index.length

/-- Sum of the edge-list lengths of the first `k` records: the cursor position
before record `k`'s edges are appended. -/
def prefEdges (recs : List SerializedDepNode) (k : Nat) : Nat :=
  ((recs.take k).map (fun d => d.edges.length)).sum

/-- Concrete graph from the spec scenario: three nodes with identities
10, 20, 30, edges 0→1, 0→2, 1→2, fingerprints 100, 200, 300, all states 0. -/
def gSmall : SerializedDepGraph :=
  { nodes := [⟨10, 100, [1, 2]⟩, ⟨20, 200, [2]⟩, ⟨30, 300, []⟩]
    state := [0, 0, 0] }

/-- Concrete graph with a duplicated identity 7 and a mismatched state vector. -/
def gDup : SerializedDepGraph :=
  { nodes := [⟨7, 10, []⟩, ⟨7, 20, []⟩]
    state := [0, 0] }

/-- Concrete graph with one record whose edge list mentions target 5, although
only one record exists. -/
def gBadTarget : SerializedDepGraph :=
  { nodes := [⟨1, 0, [5]⟩]
    state := [0] }

/-- Concrete graph with a duplicated identity 7 and an over-long state vector. -/
def gMismatch : SerializedDepGraph :=
  { nodes := [⟨7, 10, []⟩, ⟨7, 20, []⟩]
    state := [5, 6, 9] }

/-- Concrete graph whose single record has `2^32` edges, so the `u32` range
casts wrap: the stored range is `(0, 0)` although `2^32` edges were supplied. -/
def gBig : SerializedDepGraph :=
  { nodes := [⟨0, 0, List.replicate U32MOD 0⟩]
    state := [0] }

/-- Concrete graph whose records hold `2^32 + 1` edges in total, so the second
record's stored range wraps to `(2^32 - 1, 1)` with its start above its end. -/
def gWrap : SerializedDepGraph :=
  { nodes := [⟨0, 0, List.replicate (U32MOD - 1) 0⟩, ⟨1, 0, [0, 0]⟩]
    state := [0, 0] }

theorem hmGet?_nil (k : Nat) : hmGet? [] k = none := rfl

theorem hmGet?_cons (p : Nat × Nat) (ps : List (Nat × Nat)) (k : Nat) :
    hmGet? (p :: ps) k = if p.1 = k then some p.2 else hmGet? ps k := by
  by_cases h : p.1 = k
  · simp [hmGet?, List.find?_cons_of_pos, h]
  · simp [hmGet?, List.find?_cons_of_neg, h]

theorem hmGet?_hmInsert (m : List (Nat × Nat)) (kv : Nat × Nat) (k : Nat) :
    hmGet? (hmInsert m kv) k = if k = kv.1 then some kv.2 else hmGet? m k := by
  induction m with
  | nil =>
    by_cases h : k = kv.1
    · show hmGet? [kv] k = _
      rw [hmGet?_cons, if_pos (by omega : kv.1 = k), if_pos h]
    · show hmGet? [kv] k = _
      rw [hmGet?_cons, if_neg (by omega : ¬ kv.1 = k), if_neg h, hmGet?_nil]
  | cons p ps ih =>
    by_cases hp : p.1 = kv.1
    · simp only [hmInsert, if_pos hp]
      by_cases h : k = kv.1
      · rw [hmGet?_cons, if_pos (by omega : p.1 = k), if_pos h]
      · rw [hmGet?_cons, if_neg (by omega : ¬ p.1 = k), if_neg h,
          hmGet?_cons, if_neg (by omega : ¬ p.1 = k)]
    · simp only [hmInsert, if_neg hp]
      by_cases h : k = kv.1
      · rw [hmGet?_cons, if_neg (by omega : ¬ p.1 = k), ih, if_pos h, if_pos h]
      · simp only [hmGet?_cons, ih, if_neg h]

theorem hmGet?_foldl_none (ps : List (Nat × Nat)) (m : List (Nat × Nat)) (k : Nat)
    (h : lastVal ps k = none) : hmGet? (ps.foldl hmInsert m) k = hmGet? m k := by
  induction ps generalizing m with
  | nil => rfl
  | cons p ps ih =>
    have hps : lastVal ps k = none := by
      cases hq : lastVal ps k with
      | none => rfl
      | some w => simp [lastVal, hq] at h
    have hp1 : ¬ p.1 = k := by
      simp only [lastVal, hps] at h
      intro hc
      rw [if_pos hc] at h
      exact Option.noConfusion h
    rw [List.foldl_cons, ih (hmInsert m p) hps, hmGet?_hmInsert,
      if_neg (by omega : ¬ k = p.1)]

theorem hmGet?_foldl_some (ps : List (Nat × Nat)) (m : List (Nat × Nat)) (k v : Nat)
    (h : lastVal ps k = some v) : hmGet? (ps.foldl hmInsert m) k = some v := by
  induction ps generalizing m with
  | nil => simp [lastVal] at h
  | cons p ps ih =>
    rw [List.foldl_cons]
    cases hlv : lastVal ps k with
    | some w =>
      have hv : w = v := by
        simp only [lastVal, hlv] at h
        exact Option.some.inj h
      exact ih (hmInsert m p) (hv ▸ hlv)
    | none =>
      simp only [lastVal, hlv] at h
      by_cases hk : p.1 = k
      · rw [if_pos hk] at h
        rw [hmGet?_foldl_none ps (hmInsert m p) k hlv, hmGet?_hmInsert,
          if_pos (by omega : k = p.1)]
        exact congrArg some (Option.some.inj h)
      · rw [if_neg hk] at h
        exact Option.noConfusion h

theorem hmGet?_hmCollect (ps : List (Nat × Nat)) (k : Nat) :
    hmGet? (hmCollect ps) k = lastVal ps k := by
  cases h : lastVal ps k with
  | some v => exact hmGet?_foldl_some ps [] k v h
  | none => rw [hmCollect, hmGet?_foldl_none ps [] k h, hmGet?_nil]

theorem lastVal_enumPairs (l : List Nat) (i d : Nat) :
    lastVal (enumPairs l i) d = (lastIdxOf l d).map (fun j => j + i) := by
  induction l generalizing i with
  | nil => rfl
  | cons a rest ih =>
    show lastVal ((a, i) :: enumPairs rest (i + 1)) d = _
    cases hl : lastIdxOf rest d with
    | some j =>
      have : lastVal (enumPairs rest (i + 1)) d = some (j + (i + 1)) := by
        rw [ih (i + 1), hl]
        rfl
      simp only [lastVal, this, lastIdxOf, hl, Option.map_some]
      show some (j + (i + 1)) = some (j + 1 + i)
      exact congrArg some (by omega)
    | none =>
      have : lastVal (enumPairs rest (i + 1)) d = none := by
        rw [ih (i + 1), hl]
        rfl
      simp only [lastVal, this, lastIdxOf, hl]
      by_cases had : a = d
      · rw [if_pos had, if_pos had]
        simp
      · rw [if_neg had, if_neg had]
        rfl

theorem lastIdxOf_eq_none (l : List Nat) (d : Nat) :
    lastIdxOf l d = none ↔ d ∉ l := by
  induction l with
  | nil => simp [lastIdxOf]
  | cons a rest ih =>
    constructor
    · intro h hmem
      cases hl : lastIdxOf rest d with
      | some j => simp [lastIdxOf, hl] at h
      | none =>
        simp only [lastIdxOf, hl] at h
        rcases List.mem_cons.mp hmem with hcase | hcase
        · rw [if_pos hcase.symm] at h
          exact Option.noConfusion h
        · exact (ih.mp hl) hcase
    · intro hmem
      have hd : ¬ a = d := fun hc => hmem (hc ▸ List.mem_cons_self a rest)
      have hrest : lastIdxOf rest d = none :=
        ih.mpr (fun hc => hmem (List.mem_cons_of_mem a hc))
      simp [lastIdxOf, hrest, hd]

theorem lastIdxOf_get? (l : List Nat) (d j : Nat) (h : lastIdxOf l d = some j) :
    l.get? j = some d := by
  induction l generalizing j with
  | nil => exact Option.noConfusion h
  | cons a rest ih =>
    cases hl : lastIdxOf rest d with
    | some i =>
      simp only [lastIdxOf, hl] at h
      have : j = i + 1 := (Option.some.inj h).symm
      subst this
      exact ih i hl
    | none =>
      simp only [lastIdxOf, hl] at h
      by_cases had : a = d
      · rw [if_pos had] at h
        have : j = 0 := (Option.some.inj h).symm
        subst this
        simpa using had
      · rw [if_neg had] at h
        exact Option.noConfusion h

theorem lastIdxOf_ge (l : List Nat) (d j : Nat) (h : l.get? j = some d) :
    ∃ m, lastIdxOf l d = some m ∧ j ≤ m := by
  induction l generalizing j with
  | nil => simp at h
  | cons a rest ih =>
    cases j with
    | zero =>
      have had : a = d := by simpa using h
      cases hl : lastIdxOf rest d with
      | some i => exact ⟨i + 1, by simp [lastIdxOf, hl], Nat.zero_le _⟩
      | none => exact ⟨0, by simp [lastIdxOf, hl, had], Nat.le_refl 0⟩
    | succ j =>
      have hrest : rest.get? j = some d := by simpa using h
      obtain ⟨m, hm, hjm⟩ := ih j hrest
      exact ⟨m + 1, by simp [lastIdxOf, hm], by omega⟩

theorem lastIdxOf_nodup (l : List Nat) (d k : Nat) (hn : l.Nodup)
    (h : l.get? k = some d) : lastIdxOf l d = some k := by
  induction l generalizing k with
  | nil => simp at h
  | cons a rest ih =>
    cases k with
    | zero =>
      have had : a = d := by simpa using h
      have hnot : d ∉ rest := had ▸ (List.nodup_cons.mp hn).1
      have hrest : lastIdxOf rest d = none := (lastIdxOf_eq_none rest d).mpr hnot
      simp [lastIdxOf, hrest, had]
    | succ k =>
      have hrest : rest.get? k = some d := by simpa using h
      have := ih k (List.nodup_cons.mp hn).2 hrest
      simp [lastIdxOf, this]

theorem lastIdxOf_last (l : List Nat) (d j : Nat) (h : l.get? j = some d)
    (hl : ∀ m, j < m → l.get? m ≠ some d) : lastIdxOf l d = some j := by
  induction l generalizing j with
  | nil => simp at h
  | cons a rest ih =>
    cases j with
    | zero =>
      have had : a = d := by simpa using h
      have hnot : d ∉ rest := by
        intro hmem
        obtain ⟨i, hget⟩ := List.mem_iff_get?.mp hmem
        exact hl (i + 1) (Nat.succ_pos i) (by simpa using hget)
      have hrest : lastIdxOf rest d = none := (lastIdxOf_eq_none rest d).mpr hnot
      simp [lastIdxOf, hrest, had]
    | succ j =>
      have hrest : rest.get? j = some d := by simpa using h
      have hlast : ∀ m, j < m → rest.get? m ≠ some d := by
        intro m hm hc
        exact hl (m + 1) (by omega) (by simpa using hc)
      simp [lastIdxOf, ih j hrest hlast]

theorem enumPairs_length (l : List Nat) (i : Nat) :
    (enumPairs l i).length = l.length := by
  induction l generalizing i with
  | nil => rfl
  | cons a rest ih => simp [enumPairs, ih]

theorem enumPairs_map_fst (l : List Nat) (i : Nat) :
    (enumPairs l i).map Prod.fst = l := by
  induction l generalizing i with
  | nil => rfl
  | cons a rest ih => simp [enumPairs, ih]

theorem new_index (g : SerializedDepGraph) :
    (PreviousDepGraph.new g).index
      = hmCollect (enumPairs (g.nodes.map SerializedDepNode.node) 0) := rfl

theorem new_nodes (g : SerializedDepGraph) :
    (PreviousDepGraph.new g).nodes = g.nodes.map SerializedDepNode.node := rfl

theorem new_fingerprints (g : SerializedDepGraph) :
    (PreviousDepGraph.new g).fingerprints
      = g.nodes.map SerializedDepNode.fingerprint := rfl

theorem new_state (g : SerializedDepGraph) :
    (PreviousDepGraph.new g).state = g.state := rfl

theorem new_edge_data (g : SerializedDepGraph) :
    (PreviousDepGraph.new g).edge_list_data
      = (g.nodes.foldl edgeStep ([], [])).1 := rfl

theorem new_edge_indices (g : SerializedDepGraph) :
    (PreviousDepGraph.new g).edge_list_indices
      = (g.nodes.foldl edgeStep ([], [])).2 := rfl

theorem hmGet?_new_index (g : SerializedDepGraph) (d : Nat) :
    hmGet? (PreviousDepGraph.new g).index d
      = lastIdxOf (g.nodes.map SerializedDepNode.node) d := by
  rw [new_index, hmGet?_hmCollect, lastVal_enumPairs]
  cases lastIdxOf (g.nodes.map SerializedDepNode.node) d <;> simp

theorem mem_keys_hmInsert (m : List (Nat × Nat)) (kv : Nat × Nat) (a : Nat) :
    a ∈ (hmInsert m kv).map Prod.fst ↔ a ∈ m.map Prod.fst ∨ a = kv.1 := by
  induction m with
  | nil => simp [hmInsert]
  | cons p ps ih =>
    by_cases hp : p.1 = kv.1
    · simp only [hmInsert, if_pos hp, List.map_cons, List.mem_cons]
      constructor
      · rintro (h | h)
        · exact Or.inl (Or.inl h)
        · exact Or.inl (Or.inr h)
      · rintro ((h | h) | h)
        · exact Or.inl h
        · exact Or.inr h
        · exact Or.inl (by omega)
    · simp only [hmInsert, if_neg hp, List.map_cons, List.mem_cons, ih]
      tauto

theorem nodup_keys_hmInsert (m : List (Nat × Nat)) (kv : Nat × Nat)
    (h : (m.map Prod.fst).Nodup) : ((hmInsert m kv).map Prod.fst).Nodup := by
  induction m with
  | nil => simp [hmInsert]
  | cons p ps ih =>
    rw [List.map_cons, List.nodup_cons] at h
    by_cases hp : p.1 = kv.1
    · simpa only [hmInsert, if_pos hp, List.map_cons, List.nodup_cons] using h
    · simp only [hmInsert, if_neg hp, List.map_cons, List.nodup_cons,
        mem_keys_hmInsert]
      exact ⟨fun hc => hc.elim h.1 hp, ih h.2⟩

theorem hmInsert_fresh (m : List (Nat × Nat)) (kv : Nat × Nat)
    (h : kv.1 ∉ m.map Prod.fst) : hmInsert m kv = m ++ [kv] := by
  induction m with
  | nil => rfl
  | cons p ps ih =>
    simp only [List.map_cons, List.mem_cons] at h
    push_neg at h
    obtain ⟨h1, h2⟩ := h
    have hne : ¬ p.1 = kv.1 := fun hc => h1 hc.symm
    simp only [hmInsert, if_neg hne, ih h2, List.cons_append]

theorem foldl_hmInsert_fresh (ps m : List (Nat × Nat))
    (h : (m.map Prod.fst ++ ps.map Prod.fst).Nodup) :
    ps.foldl hmInsert m = m ++ ps := by
  induction ps generalizing m with
  | nil => simp
  | cons p ps ih =>
    have hfresh : p.1 ∉ m.map Prod.fst := by
      intro hc
      rw [List.map_cons, List.nodup_append] at h
      exact h.2.2 hc (List.mem_cons_self p.1 _)
    rw [List.foldl_cons, hmInsert_fresh m p hfresh,
      ih (m ++ [p]) (by simpa using h)]
    simp

theorem hmCollect_nodup_keys_eq (ps : List (Nat × Nat))
    (h : (ps.map Prod.fst).Nodup) : hmCollect ps = ps := by
  have := foldl_hmInsert_fresh ps [] (by simpa using h)
  simpa [hmCollect] using this

theorem mem_keys_foldl (ps m : List (Nat × Nat)) (a : Nat) :
    a ∈ ((ps.foldl hmInsert m).map Prod.fst)
      ↔ a ∈ m.map Prod.fst ∨ a ∈ ps.map Prod.fst := by
  induction ps generalizing m with
  | nil => simp
  | cons p ps ih =>
    rw [List.foldl_cons, ih (hmInsert m p)]
    simp only [mem_keys_hmInsert, List.map_cons, List.mem_cons]
    tauto

theorem nodup_keys_foldl (ps m : List (Nat × Nat))
    (h : (m.map Prod.fst).Nodup) :
    ((ps.foldl hmInsert m).map Prod.fst).Nodup := by
  induction ps generalizing m with
  | nil => exact h
  | cons p ps ih => exact ih (hmInsert m p) (nodup_keys_hmInsert m p h)

theorem nodup_keys_hmCollect (ps : List (Nat × Nat)) :
    ((hmCollect ps).map Prod.fst).Nodup :=
  nodup_keys_foldl ps [] (by simp)

theorem mem_keys_hmCollect (ps : List (Nat × Nat)) (a : Nat) :
    a ∈ (hmCollect ps).map Prod.fst ↔ a ∈ ps.map Prod.fst := by
  rw [hmCollect, mem_keys_foldl]
  simp

theorem hmCollect_length_lt (ps : List (Nat × Nat))
    (h : ¬ (ps.map Prod.fst).Nodup) : (hmCollect ps).length < ps.length := by
  have hkeys : ((hmCollect ps).map Prod.fst).Nodup := nodup_keys_hmCollect ps
  have hsub : ((hmCollect ps).map Prod.fst).toFinset ⊆ (ps.map Prod.fst).toFinset := by
    intro a ha
    rw [List.mem_toFinset] at ha ⊢
    exact (mem_keys_hmCollect ps a).mp ha
  have h1 : (hmCollect ps).length = ((hmCollect ps).map Prod.fst).toFinset.card := by
    rw [List.toFinset_card_of_nodup hkeys, List.length_map]
  have h2 : (ps.map Prod.fst).toFinset.card < (ps.map Prod.fst).length := by
    have hle : (ps.map Prod.fst).toFinset.card ≤ (ps.map Prod.fst).length :=
      List.toFinset_card_le _
    have hne : (ps.map Prod.fst).toFinset.card ≠ (ps.map Prod.fst).length := by
      intro he
      rw [List.card_toFinset] at he
      exact h (List.dedup_eq_self.mp
        ((ps.map Prod.fst).dedup_sublist.eq_of_length he))
    omega
  calc (hmCollect ps).length
      = ((hmCollect ps).map Prod.fst).toFinset.card := h1
    _ ≤ (ps.map Prod.fst).toFinset.card := Finset.card_le_card hsub
    _ < (ps.map Prod.fst).length := h2
    _ = ps.length := List.length_map ps Prod.fst

theorem prefEdges_zero (recs : List SerializedDepNode) : prefEdges recs 0 = 0 := rfl

theorem prefEdges_cons (r : SerializedDepNode) (rs : List SerializedDepNode) (k : Nat) :
    prefEdges (r :: rs) (k + 1) = r.edges.length + prefEdges rs k := by
  simp [prefEdges]

theorem prefEdges_add_drop (recs : List SerializedDepNode) (k : Nat) :
    prefEdges recs k + ((recs.drop k).map (fun d => d.edges.length)).sum
      = (recs.map (fun d => d.edges.length)).sum := by
  conv_rhs => rw [← List.take_append_drop k recs]
  rw [List.map_append, List.sum_append]
  rfl

theorem prefEdges_le_total (recs : List SerializedDepNode) (k : Nat) :
    prefEdges recs k ≤ (recs.map (fun d => d.edges.length)).sum := by
  have := prefEdges_add_drop recs k
  omega

theorem prefEdges_succ (recs : List SerializedDepNode) (k : Nat)
    (hk : k < recs.length) :
    prefEdges recs (k + 1) = prefEdges recs k + (recs.get ⟨k, hk⟩).edges.length := by
  unfold prefEdges
  rw [List.take_succ, List.map_append, List.sum_append]
  have : recs[k]? = some (recs.get ⟨k, hk⟩) := by
    simp [List.getElem?_eq_getElem hk]
  rw [this]
  simp

theorem edgeFold_fst (recs : List SerializedDepNode) (data : List Nat)
    (idx : List (Nat × Nat)) :
    (recs.foldl edgeStep (data, idx)).1
      = data ++ (recs.map SerializedDepNode.edges).flatten := by
  induction recs generalizing data idx with
  | nil => simp
  | cons r rs ih =>
    rw [List.foldl_cons]
    show (rs.foldl edgeStep (data ++ r.edges, _)).1 = _
    rw [ih]
    simp

theorem edgeFold_snd_length (recs : List SerializedDepNode) (data : List Nat)
    (idx : List (Nat × Nat)) :
    (recs.foldl edgeStep (data, idx)).2.length = idx.length + recs.length := by
  induction recs generalizing data idx with
  | nil => simp
  | cons r rs ih =>
    rw [List.foldl_cons]
    show (rs.foldl edgeStep (data ++ r.edges, idx ++ [_])).2.length = _
    rw [ih]
    simp
    omega

theorem edgeFold_snd_get? (recs : List SerializedDepNode) (data : List Nat)
    (idx : List (Nat × Nat)) (k : Nat) (hk : k < recs.length) :
    (recs.foldl edgeStep (data, idx)).2.get? (idx.length + k)
      = some ((data.length + prefEdges recs k) % U32MOD,
              (data.length + prefEdges recs (k + 1)) % U32MOD) := by
  induction recs generalizing data idx k with
  | nil => simp at hk
  | cons r rs ih =>
    rw [List.foldl_cons]
    cases k with
    | zero =>
      show (rs.foldl edgeStep (data ++ r.edges,
          idx ++ [(data.length % U32MOD, (data ++ r.edges).length % U32MOD)])).2.get?
            (idx.length + 0) = _
      have hstable : ∀ (ps : List SerializedDepNode) (d : List Nat)
          (ix : List (Nat × Nat)) (j : Nat), j < ix.length →
          (ps.foldl edgeStep (d, ix)).2.get? j = ix.get? j := by
        intro ps
        induction ps with
        | nil => intro d ix j hj; rfl
        | cons q qs ihq =>
          intro d ix j hj
          rw [List.foldl_cons]
          show (qs.foldl edgeStep (d ++ q.edges, ix ++ [_])).2.get? j = _
          rw [ihq (d ++ q.edges) (ix ++ [_]) j (by simp; omega)]
          rw [List.get?_append hj]
      rw [hstable rs (data ++ r.edges)
        (idx ++ [(data.length % U32MOD, (data ++ r.edges).length % U32MOD)])
        (idx.length + 0) (by simp)]
      rw [Nat.add_zero, List.get?_concat_length]
      rw [prefEdges_zero, prefEdges_cons]
      simp [prefEdges_zero]
    | succ k =>
      have hk' : k < rs.length := by simpa using hk
      have := ih (data ++ r.edges)
        (idx ++ [(data.length % U32MOD, (data ++ r.edges).length % U32MOD)]) k hk'
      show (rs.foldl edgeStep (data ++ r.edges, idx ++ [_])).2.get?
        (idx.length + (k + 1)) = _
      have harith :
          (idx ++ [(data.length % U32MOD, (data ++ r.edges).length % U32MOD)]).length + k
            = idx.length + (k + 1) := by
        simp
        omega
      rw [← harith, this]
      rw [prefEdges_cons, prefEdges_cons]
      simp [Nat.add_assoc]

theorem new_edge_data_flatten (g : SerializedDepGraph) :
    (PreviousDepGraph.new g).edge_list_data
      = (g.nodes.map SerializedDepNode.edges).flatten := by
  rw [new_edge_data, edgeFold_fst]
  rfl

theorem new_edge_data_length (g : SerializedDepGraph) :
    (PreviousDepGraph.new g).edge_list_data.length
      = (g.nodes.map (fun d => d.edges.length)).sum := by
  rw [new_edge_data_flatten, List.length_flatten, List.map_map]
  rfl

theorem new_edge_indices_length (g : SerializedDepGraph) :
    (PreviousDepGraph.new g).edge_list_indices.length = g.nodes.length := by
  rw [new_edge_indices, edgeFold_snd_length]
  simp

theorem new_edge_indices_get? (g : SerializedDepGraph) (k : Nat)
    (hk : k < g.nodes.length) :
    (PreviousDepGraph.new g).edge_list_indices.get? k
      = some (prefEdges g.nodes k % U32MOD, prefEdges g.nodes (k + 1) % U32MOD) := by
  rw [new_edge_indices]
  have := edgeFold_snd_get? g.nodes [] [] k hk
  simpa using this

theorem flatten_take_length (recs : List SerializedDepNode) (k : Nat) :
    ((recs.take k).map SerializedDepNode.edges).flatten.length = prefEdges recs k := by
  rw [List.length_flatten, List.map_map]
  rfl

theorem flatten_decomp (recs : List SerializedDepNode) (k : Nat)
    (hk : k < recs.length) :
    (recs.map SerializedDepNode.edges).flatten
      = ((recs.take k).map SerializedDepNode.edges).flatten
        ++ ((recs.get ⟨k, hk⟩).edges
            ++ ((recs.drop (k + 1)).map SerializedDepNode.edges).flatten) := by
  conv_lhs => rw [← List.take_append_drop k recs]
  rw [List.drop_eq_getElem_cons hk, List.map_append, List.flatten_append,
    List.map_cons, List.flatten_cons]
  simp [List.get_eq_getElem]

theorem edge_targets_from_new (g : SerializedDepGraph) (k : Nat)
    (hk : k < g.nodes.length)
    (htotal : (g.nodes.map (fun d => d.edges.length)).sum < U32MOD) :
    (PreviousDepGraph.new g).edge_targets_from k = (g.nodes.get ⟨k, hk⟩).edges := by
  have hs : prefEdges g.nodes k < U32MOD :=
    lt_of_le_of_lt (prefEdges_le_total g.nodes k) htotal
  have he : prefEdges g.nodes (k + 1) < U32MOD :=
    lt_of_le_of_lt (prefEdges_le_total g.nodes (k + 1)) htotal
  have hidx := new_edge_indices_get? g k hk
  rw [Nat.mod_eq_of_lt hs, Nat.mod_eq_of_lt he] at hidx
  unfold PreviousDepGraph.edge_targets_from
  rw [hidx]
  show ((PreviousDepGraph.new g).edge_list_data.drop (prefEdges g.nodes k)).take
      (prefEdges g.nodes (k + 1) - prefEdges g.nodes k) = _
  rw [new_edge_data_flatten, flatten_decomp g.nodes k hk,
    prefEdges_succ g.nodes k hk]
  have hsub : prefEdges g.nodes k + (g.nodes.get ⟨k, hk⟩).edges.length
      - prefEdges g.nodes k = (g.nodes.get ⟨k, hk⟩).edges.length := by omega
  rw [hsub, List.drop_left' (flatten_take_length g.nodes k),
    List.take_left' rfl]

theorem node_count_new (g : SerializedDepGraph)
    (hnd : (g.nodes.map SerializedDepNode.node).Nodup) :
    (PreviousDepGraph.new g).node_count = g.nodes.length := by
  show (hmCollect (enumPairs (g.nodes.map SerializedDepNode.node) 0)).length = _
  rw [hmCollect_nodup_keys_eq _ (by rw [enumPairs_map_fst]; exact hnd),
    enumPairs_length, List.length_map]

theorem edge_targets_mem_data (g : PreviousDepGraph) (k t : Nat)
    (ht : t ∈ g.edge_targets_from k) : t ∈ g.edge_list_data := by
  unfold PreviousDepGraph.edge_targets_from at ht
  cases h : g.edge_list_indices.get? k with
  | some p =>
    rw [h] at ht
    exact List.drop_subset _ _ (List.take_subset _ _ ht)
  | none =>
    rw [h] at ht
    exact absurd ht (List.not_mem_nil t)


/-- C1: counterexample. Construction from two records both claiming identity 7
does not fail: it produces a snapshot, silently overwrites the earlier
identity-to-key mapping (identity 7 is mapped to key 1, not key 0), and no
`DuplicateIdentity` error exists anywhere in the code. -/
theorem C1_counterexample :
    (PreviousDepGraph.new gDup).node_to_index_opt 7 = some 1
      ∧ (PreviousDepGraph.new gDup).node_count = 1
      ∧ (PreviousDepGraph.new gDup).nodes.length = 2 := by decide

/-- C1 (amended): construction always succeeds; when the input contains a
later record with the same identity as an earlier one, the identity-to-key map
silently overwrites the earlier mapping, so the lookup returns a key strictly
greater than the earlier record's position. -/
theorem C1_overwrite (g : SerializedDepGraph) (d i j : Nat) (hij : i < j)
    (hj : (g.nodes.map SerializedDepNode.node).get? j = some d) :
    ∃ m, (PreviousDepGraph.new g).node_to_index_opt d = some m ∧ i < m := by
  obtain ⟨m, hm, hjm⟩ := lastIdxOf_ge _ d j hj
  refine ⟨m, ?_, by omega⟩
  rw [PreviousDepGraph.node_to_index_opt, hmGet?_new_index, hm]

/-- C1 witness: the amended statement applied to the concrete duplicate input. -/
theorem C1_overwrite_witness :
    ∃ m, (PreviousDepGraph.new gDup).node_to_index_opt 7 = some m ∧ 0 < m :=
  C1_overwrite gDup 7 0 1 (by decide) (by decide)

/-- C2: counterexample. An input whose only record lists edge target 5 (out of
range for a 1-record input) is not rejected: construction succeeds and
`edge_targets_from 0` returns a target that is not below `node_count`. -/
theorem C2_counterexample :
    (PreviousDepGraph.new gBadTarget).node_count = 1
      ∧ (PreviousDepGraph.new gBadTarget).edge_targets_from 0 = [5]
      ∧ ¬ 5 < (PreviousDepGraph.new gBadTarget).node_count := by decide

/-- C2 (amended): construction performs no validation, but provided the input's
identities are pairwise distinct and every supplied edge target is below the
record count, every target returned by `edge_targets_from` is below
`node_count`. -/
theorem C2_targets_in_range (g : SerializedDepGraph)
    (hnd : (g.nodes.map SerializedDepNode.node).Nodup)
    (htargets : ∀ r ∈ g.nodes, ∀ t ∈ r.edges, t < g.nodes.length)
    (k : Nat) (hk : k < (PreviousDepGraph.new g).node_count)
    (t : Nat) (ht : t ∈ (PreviousDepGraph.new g).edge_targets_from k) :
    t < (PreviousDepGraph.new g).node_count := by
  rw [node_count_new g hnd]
  have hmem : t ∈ (PreviousDepGraph.new g).edge_list_data :=
    edge_targets_mem_data _ k t ht
  rw [new_edge_data_flatten] at hmem
  obtain ⟨l, hl, htl⟩ := List.mem_flatten.mp hmem
  obtain ⟨r, hr, hrl⟩ := List.mem_map.mp hl
  exact htargets r hr t (hrl ▸ htl)

/-- C2 witness: the amended statement applied to the concrete three-node
input, at key 0 and target 1. -/
theorem C2_targets_in_range_witness :
    1 < (PreviousDepGraph.new gSmall).node_count :=
  C2_targets_in_range gSmall (by decide) (by decide) 0 (by decide) 1 (by decide)

/-- C3: counterexample. With a duplicated identity the second round trip
fails: key 0 is below `node_count`, `index_to_node 0` is identity 7, yet
`node_to_index 7` is key 1, not key 0. -/
theorem C3_counterexample :
    0 < (PreviousDepGraph.new gDup).node_count
      ∧ (PreviousDepGraph.new gDup).index_to_node 0 = some 7
      ∧ (PreviousDepGraph.new gDup).node_to_index 7 = some 1
      ∧ ¬ (PreviousDepGraph.new gDup).node_to_index 7 = some 0 := by decide

/-- C3 (amended): provided the input's identities are pairwise distinct, both
round trips hold: every input identity maps to a key that maps back to it, and
every key below `node_count` maps to an identity that maps back to it. -/
theorem C3_roundtrip (g : SerializedDepGraph)
    (hnd : (g.nodes.map SerializedDepNode.node).Nodup) :
    (∀ d ∈ g.nodes.map SerializedDepNode.node,
        ∃ k, (PreviousDepGraph.new g).node_to_index d = some k
          ∧ (PreviousDepGraph.new g).index_to_node k = some d)
      ∧ (∀ k, k < (PreviousDepGraph.new g).node_count →
          ∃ d, (PreviousDepGraph.new g).index_to_node k = some d
            ∧ (PreviousDepGraph.new g).node_to_index d = some k) := by
  constructor
  · intro d hd
    cases hlast : lastIdxOf (g.nodes.map SerializedDepNode.node) d with
    | none => exact absurd ((lastIdxOf_eq_none _ d).mp hlast) (by simpa using hd)
    | some j =>
      refine ⟨j, ?_, ?_⟩
      · rw [PreviousDepGraph.node_to_index, hmGet?_new_index, hlast]
      · rw [PreviousDepGraph.index_to_node, new_nodes]
        exact lastIdxOf_get? _ d j hlast
  · intro k hk
    rw [node_count_new g hnd, ← List.length_map g.nodes SerializedDepNode.node] at hk
    refine ⟨(g.nodes.map SerializedDepNode.node).get ⟨k, hk⟩, ?_, ?_⟩
    · rw [PreviousDepGraph.index_to_node, new_nodes]
      exact List.get?_eq_get hk
    · rw [PreviousDepGraph.node_to_index, hmGet?_new_index]
      exact lastIdxOf_nodup _ _ k hnd (List.get?_eq_get hk)

/-- C3 witness: the amended statement applied to the concrete three-node
input, for identity 20 and for key 2. -/
theorem C3_roundtrip_witness :
    (∃ k, (PreviousDepGraph.new gSmall).node_to_index 20 = some k
        ∧ (PreviousDepGraph.new gSmall).index_to_node k = some 20)
      ∧ ∃ d, (PreviousDepGraph.new gSmall).index_to_node 2 = some d
          ∧ (PreviousDepGraph.new gSmall).node_to_index d = some 2 :=
  ⟨(C3_roundtrip gSmall (by decide)).1 20 (by decide),
   (C3_roundtrip gSmall (by decide)).2 2 (by decide)⟩

/-- C4: counterexample. With a duplicated identity and an over-long state
vector, the five collections do not share one length: the map (and
`node_count`) report 1, the `nodes` and `fingerprints` vectors hold 2 entries,
and the state vector holds 3. -/
theorem C4_counterexample :
    (PreviousDepGraph.new gMismatch).node_count = 1
      ∧ (PreviousDepGraph.new gMismatch).index.length = 1
      ∧ (PreviousDepGraph.new gMismatch).nodes.length = 2
      ∧ (PreviousDepGraph.new gMismatch).fingerprints.length = 2
      ∧ (PreviousDepGraph.new gMismatch).state.length = 3 := by decide

/-- C4 (amended): provided the input's identities are pairwise distinct and the
supplied state sequence has exactly one entry per record, all five per-key
collections have length equal to `node_count`. -/
theorem C4_lengths (g : SerializedDepGraph)
    (hnd : (g.nodes.map SerializedDepNode.node).Nodup)
    (hst : g.state.length = g.nodes.length) :
    (PreviousDepGraph.new g).index.length = (PreviousDepGraph.new g).node_count
      ∧ (PreviousDepGraph.new g).nodes.length = (PreviousDepGraph.new g).node_count
      ∧ (PreviousDepGraph.new g).fingerprints.length
          = (PreviousDepGraph.new g).node_count
      ∧ (PreviousDepGraph.new g).edge_list_indices.length
          = (PreviousDepGraph.new g).node_count
      ∧ (PreviousDepGraph.new g).state.length = (PreviousDepGraph.new g).node_count := by
  have hnc := node_count_new g hnd
  refine ⟨rfl, ?_, ?_, ?_, ?_⟩
  · rw [new_nodes, List.length_map, hnc]
  · rw [new_fingerprints, List.length_map, hnc]
  · rw [new_edge_indices_length, hnc]
  · rw [new_state, hst, hnc]

/-- C4 witness: the amended statement applied to the concrete three-node input. -/
theorem C4_lengths_witness :
    (PreviousDepGraph.new gSmall).index.length = (PreviousDepGraph.new gSmall).node_count
      ∧ (PreviousDepGraph.new gSmall).nodes.length
          = (PreviousDepGraph.new gSmall).node_count
      ∧ (PreviousDepGraph.new gSmall).fingerprints.length
          = (PreviousDepGraph.new gSmall).node_count
      ∧ (PreviousDepGraph.new gSmall).edge_list_indices.length
          = (PreviousDepGraph.new gSmall).node_count
      ∧ (PreviousDepGraph.new gSmall).state.length
          = (PreviousDepGraph.new gSmall).node_count :=
  C4_lengths gSmall (by decide) (by decide)

/-- C5: counterexample. When the total edge count reaches `2^32` the `u32`
casts wrap: the single record of `gBig` supplies `2^32` edges, yet
`edge_targets_from 0` returns the empty list, not the supplied edge list. -/
theorem C5_counterexample :
    0 < (PreviousDepGraph.new gBig).node_count
      ∧ (PreviousDepGraph.new gBig).edge_targets_from 0 = []
      ∧ gBig.nodes.get? 0 = some ⟨0, 0, List.replicate U32MOD 0⟩
      ∧ List.replicate U32MOD 0 ≠ ([] : List Nat) := by
  refine ⟨by decide, ?_, rfl, ?_⟩
  · have hk : (0 : Nat) < gBig.nodes.length := by decide
    have hidx := new_edge_indices_get? gBig 0 hk
    have h1 : prefEdges gBig.nodes 0 = 0 := prefEdges_zero _
    have h2 : prefEdges gBig.nodes (0 + 1) = U32MOD := by
      show ((gBig.nodes.take (0 + 1)).map (fun d => d.edges.length)).sum = U32MOD
      simp [gBig]
    rw [h1, h2, Nat.zero_mod, Nat.mod_self] at hidx
    unfold PreviousDepGraph.edge_targets_from
    rw [hidx]
    show ((PreviousDepGraph.new gBig).edge_list_data.drop 0).take (0 - 0) = []
    rw [Nat.sub_self, List.take_zero]
  · intro h
    have hlen := congrArg List.length h
    simp only [List.length_replicate, List.length_nil] at hlen
    exact absurd hlen (by decide)

/-- C5 (amended): provided the total edge count is at most `u32::MAX` (the
bound the code only debug-asserts), `edge_targets_from k` returns exactly the
edge list supplied for record `k`, in order. -/
theorem C5_edge_order (g : SerializedDepGraph)
    (htotal : (g.nodes.map (fun d => d.edges.length)).sum ≤ U32MOD - 1)
    (k : Nat) (hk : k < g.nodes.length) :
    (PreviousDepGraph.new g).edge_targets_from k = (g.nodes.get ⟨k, hk⟩).edges :=
  edge_targets_from_new g k hk
    (by
      have h0 : 0 < U32MOD := by decide
      omega)

/-- C5 witness: the amended statement applied to the concrete three-node input
at key 0, whose supplied edge list is `[1, 2]`. -/
theorem C5_edge_order_witness :
    (PreviousDepGraph.new gSmall).edge_targets_from 0 = [1, 2] := by
  have h := C5_edge_order gSmall (by decide) 0 (by decide)
  exact h.trans (by decide)

/-- C6: `fingerprint_by_index k` returns exactly the fingerprint supplied for
the record at position `k`, and the stored state at position `k` is exactly the
supplied state entry; the structure is never mutated afterwards. -/
theorem C6_fidelity (g : SerializedDepGraph) (k : Nat) (hk : k < g.nodes.length) :
    (PreviousDepGraph.new g).fingerprint_by_index k
      = some (g.nodes.get ⟨k, hk⟩).fingerprint
      ∧ (PreviousDepGraph.new g).state.get? k = g.state.get? k := by
  refine ⟨?_, by rw [new_state]⟩
  rw [PreviousDepGraph.fingerprint_by_index, new_fingerprints,
    List.get?_eq_getElem?, List.getElem?_map, List.getElem?_eq_getElem hk]
  rfl

/-- C6 witness: the statement applied to the concrete three-node input at
key 1, whose supplied fingerprint is 200. -/
theorem C6_fidelity_witness :
    (PreviousDepGraph.new gSmall).fingerprint_by_index 1 = some 200
      ∧ (PreviousDepGraph.new gSmall).state.get? 1 = gSmall.state.get? 1 := by
  have h := C6_fidelity gSmall 1 (by decide)
  exact ⟨h.1.trans (by decide), h.2⟩

/-- C7: counterexample. With `2^32 + 1` edges in total, the second record's
stored range is `(2^32 - 1, 1)`: its start exceeds its end, violating
`start <= end`. -/
theorem C7_counterexample :
    (PreviousDepGraph.new gWrap).edge_list_indices.get? 1 = some (U32MOD - 1, 1)
      ∧ ¬ U32MOD - 1 ≤ 1 := by
  constructor
  · have hk : (1 : Nat) < gWrap.nodes.length := by decide
    have hidx := new_edge_indices_get? gWrap 1 hk
    have h1 : prefEdges gWrap.nodes 1 = U32MOD - 1 := by
      show ((gWrap.nodes.take 1).map (fun d => d.edges.length)).sum = U32MOD - 1
      simp [gWrap]
    have h2 : prefEdges gWrap.nodes (1 + 1) = U32MOD + 1 := by
      show ((gWrap.nodes.take (1 + 1)).map (fun d => d.edges.length)).sum = U32MOD + 1
      simp [gWrap]
      decide
    rw [h1, h2] at hidx
    have hm1 : (U32MOD - 1) % U32MOD = U32MOD - 1 := Nat.mod_eq_of_lt (by decide)
    have hm2 : (U32MOD + 1) % U32MOD = 1 := by
      rw [Nat.add_mod_left]
      exact Nat.mod_eq_of_lt (by decide)
    rw [hm1, hm2] at hidx
    exact hidx
  · decide

/-- C7 (amended): provided the total edge count is at most `u32::MAX`, every
stored range is `(prefEdges k, prefEdges (k+1))` with
`start <= end <= edge_list_data.length`, consecutive keys share their boundary
(the range for key k+1 starts where key k's range ended), and the flat edge
array's length is the sum of the per-record edge-list lengths. The length
conjunct holds unconditionally. -/
theorem C7_ranges (g : SerializedDepGraph)
    (htotal : (g.nodes.map (fun d => d.edges.length)).sum ≤ U32MOD - 1) :
    (∀ k, k < g.nodes.length →
        (PreviousDepGraph.new g).edge_list_indices.get? k
          = some (prefEdges g.nodes k, prefEdges g.nodes (k + 1))
        ∧ prefEdges g.nodes k ≤ prefEdges g.nodes (k + 1)
        ∧ prefEdges g.nodes (k + 1) ≤ (PreviousDepGraph.new g).edge_list_data.length)
      ∧ (∀ k, k + 1 < g.nodes.length →
          ∃ s e f, (PreviousDepGraph.new g).edge_list_indices.get? k = some (s, e)
            ∧ (PreviousDepGraph.new g).edge_list_indices.get? (k + 1) = some (e, f))
      ∧ (PreviousDepGraph.new g).edge_list_data.length
          = (g.nodes.map (fun d => d.edges.length)).sum := by
  have h0 : 0 < U32MOD := by decide
  have hmod : ∀ j, prefEdges g.nodes j % U32MOD = prefEdges g.nodes j := by
    intro j
    exact Nat.mod_eq_of_lt (by have := prefEdges_le_total g.nodes j; omega)
  refine ⟨?_, ?_, new_edge_data_length g⟩
  · intro k hk
    have hidx := new_edge_indices_get? g k hk
    rw [hmod k, hmod (k + 1)] at hidx
    refine ⟨hidx, ?_, ?_⟩
    · rw [prefEdges_succ g.nodes k hk]
      omega
    · rw [new_edge_data_length g]
      exact prefEdges_le_total g.nodes (k + 1)
  · intro k hk
    have hk1 : k < g.nodes.length := by omega
    have ha := new_edge_indices_get? g k hk1
    have hb := new_edge_indices_get? g (k + 1) hk
    rw [hmod k, hmod (k + 1)] at ha
    rw [hmod (k + 1), hmod (k + 2)] at hb
    exact ⟨_, _, _, ha, hb⟩

/-- C7 witness: the amended statement applied to the concrete three-node
input: the first range and the total-length identity. -/
theorem C7_ranges_witness :
    (PreviousDepGraph.new gSmall).edge_list_indices.get? 0
        = some (prefEdges gSmall.nodes 0, prefEdges gSmall.nodes 1)
      ∧ (PreviousDepGraph.new gSmall).edge_list_data.length
          = (gSmall.nodes.map (fun d => d.edges.length)).sum :=
  ⟨((C7_ranges gSmall (by decide)).1 0 (by decide)).1,
   (C7_ranges gSmall (by decide)).2.2⟩

/-- C8: for an identity never present in the input, `node_to_index_opt` and
`fingerprint_of` return `none` and `node_to_index` panics (modelled as `none`,
distinguishable from any successful `some key`); for a present identity,
`fingerprint_of` equals `fingerprint_by_index` applied to the key returned by
`node_to_index_opt`. -/
theorem C8_unknown_identity (g : SerializedDepGraph) (d : Nat) :
    (d ∉ g.nodes.map SerializedDepNode.node →
        (PreviousDepGraph.new g).node_to_index_opt d = none
        ∧ (PreviousDepGraph.new g).node_to_index d = none
        ∧ (PreviousDepGraph.new g).fingerprint_of d = none)
      ∧ (d ∈ g.nodes.map SerializedDepNode.node →
        ∃ k, (PreviousDepGraph.new g).node_to_index_opt d = some k
          ∧ (PreviousDepGraph.new g).fingerprint_of d
              = (PreviousDepGraph.new g).fingerprint_by_index k) := by
  constructor
  · intro hd
    have hnone : lastIdxOf (g.nodes.map SerializedDepNode.node) d = none :=
      (lastIdxOf_eq_none _ d).mpr hd
    refine ⟨?_, ?_, ?_⟩
    · rw [PreviousDepGraph.node_to_index_opt, hmGet?_new_index, hnone]
    · rw [PreviousDepGraph.node_to_index, hmGet?_new_index, hnone]
    · rw [PreviousDepGraph.fingerprint_of, hmGet?_new_index, hnone]
      rfl
  · intro hd
    cases hlast : lastIdxOf (g.nodes.map SerializedDepNode.node) d with
    | none => exact absurd ((lastIdxOf_eq_none _ d).mp hlast) (by simpa using hd)
    | some j =>
      refine ⟨j, ?_, ?_⟩
      · rw [PreviousDepGraph.node_to_index_opt, hmGet?_new_index, hlast]
      · rw [PreviousDepGraph.fingerprint_of, hmGet?_new_index, hlast]
        rfl

/-- C8 witness: the statement applied to the concrete three-node input, for
the absent identity 99 and the present identity 20. -/
theorem C8_unknown_identity_witness :
    ((PreviousDepGraph.new gSmall).node_to_index_opt 99 = none
        ∧ (PreviousDepGraph.new gSmall).node_to_index 99 = none
        ∧ (PreviousDepGraph.new gSmall).fingerprint_of 99 = none)
      ∧ ∃ k, (PreviousDepGraph.new gSmall).node_to_index_opt 20 = some k
          ∧ (PreviousDepGraph.new gSmall).fingerprint_of 20
              = (PreviousDepGraph.new gSmall).fingerprint_by_index k :=
  ⟨(C8_unknown_identity gSmall 99).1 (by decide),
   (C8_unknown_identity gSmall 20).2 (by decide)⟩

/-- C9: with a duplicated identity (positions i < j, j the last occurrence),
construction succeeds, the identity-to-key map sends that identity to the key
of the last such record, and `node_count` — the map's length — reports fewer
nodes than there are records, while the per-key vectors keep one entry per
record. -/
theorem C9_duplicate_overwrite (g : SerializedDepGraph) (d i j : Nat)
    (hij : i < j)
    (hi : (g.nodes.map SerializedDepNode.node).get? i = some d)
    (hj : (g.nodes.map SerializedDepNode.node).get? j = some d)
    (hlast : ∀ m, j < m → (g.nodes.map SerializedDepNode.node).get? m ≠ some d) :
    (PreviousDepGraph.new g).node_to_index_opt d = some j
      ∧ (PreviousDepGraph.new g).node_count < g.nodes.length
      ∧ (PreviousDepGraph.new g).nodes.length = g.nodes.length
      ∧ (PreviousDepGraph.new g).fingerprints.length = g.nodes.length := by
  have hnotnd : ¬ (g.nodes.map SerializedDepNode.node).Nodup := by
    intro hnd
    have h1 := lastIdxOf_nodup _ d i hnd hi
    have h2 := lastIdxOf_nodup _ d j hnd hj
    rw [h1] at h2
    exact absurd (Option.some.inj h2) (by omega)
  refine ⟨?_, ?_, ?_, ?_⟩
  · rw [PreviousDepGraph.node_to_index_opt, hmGet?_new_index]
    exact lastIdxOf_last _ d j hj hlast
  · show (hmCollect (enumPairs (g.nodes.map SerializedDepNode.node) 0)).length
      < g.nodes.length
    have hlt := hmCollect_length_lt (enumPairs (g.nodes.map SerializedDepNode.node) 0)
      (by rw [enumPairs_map_fst]; exact hnotnd)
    rw [enumPairs_length, List.length_map] at hlt
    exact hlt
  · rw [new_nodes, List.length_map]
  · rw [new_fingerprints, List.length_map]

/-- C9 witness: the statement applied to the concrete duplicate input. -/
theorem C9_duplicate_overwrite_witness :
    (PreviousDepGraph.new gDup).node_to_index_opt 7 = some 1
      ∧ (PreviousDepGraph.new gDup).node_count < gDup.nodes.length
      ∧ (PreviousDepGraph.new gDup).nodes.length = gDup.nodes.length
      ∧ (PreviousDepGraph.new gDup).fingerprints.length = gDup.nodes.length :=
  C9_duplicate_overwrite gDup 7 0 1 (by decide) (by decide) (by decide)
    (by
      intro m hm hc
      have hlen : (gDup.nodes.map SerializedDepNode.node).length ≤ m := by
        have : (gDup.nodes.map SerializedDepNode.node).length = 2 := by decide
        omega
      rw [List.get?_eq_none.mpr hlen] at hc
      exact Option.noConfusion hc)

/-- C10: the stored adjacency ranges are the `u32` casts (mod `2^32`) of the
running cursor: entry k is `(prefEdges k % 2^32, prefEdges (k+1) % 2^32)`;
consequently, beyond `u32::MAX` total edges the ranges wrap — on the one-record
input with `2^32` edges, `edge_targets_from 0` returns the empty list instead
of the supplied (non-empty) edge list. -/
theorem C10_u32_ranges :
    (∀ (g : SerializedDepGraph) (k : Nat), k < g.nodes.length →
        (PreviousDepGraph.new g).edge_list_indices.get? k
          = some (prefEdges g.nodes k % U32MOD, prefEdges g.nodes (k + 1) % U32MOD))
      ∧ ((PreviousDepGraph.new gBig).edge_targets_from 0 = []
        ∧ gBig.nodes.get? 0 = some ⟨0, 0, List.replicate U32MOD 0⟩
        ∧ List.replicate U32MOD 0 ≠ ([] : List Nat)) := by
  refine ⟨fun g k hk => new_edge_indices_get? g k hk, ?_, rfl, ?_⟩
  · have hk : (0 : Nat) < gBig.nodes.length := by decide
    have hidx := new_edge_indices_get? gBig 0 hk
    have h1 : prefEdges gBig.nodes 0 = 0 := prefEdges_zero _
    have h2 : prefEdges gBig.nodes (0 + 1) = U32MOD := by
      show ((gBig.nodes.take (0 + 1)).map (fun d => d.edges.length)).sum = U32MOD
      simp [gBig]
    rw [h1, h2, Nat.zero_mod, Nat.mod_self] at hidx
    unfold PreviousDepGraph.edge_targets_from
    rw [hidx]
    show ((PreviousDepGraph.new gBig).edge_list_data.drop 0).take (0 - 0) = []
    rw [Nat.sub_self, List.take_zero]
  · intro h
    have hlen := congrArg List.length h
    simp only [List.length_replicate, List.length_nil] at hlen
    exact absurd hlen (by decide)

/-- C10 witness: the range formula applied to the concrete three-node input at
key 1. -/
theorem C10_u32_ranges_witness :
    (PreviousDepGraph.new gSmall).edge_list_indices.get? 1
      = some (prefEdges gSmall.nodes 1 % U32MOD,
              prefEdges gSmall.nodes (1 + 1) % U32MOD) :=
  C10_u32_ranges.1 gSmall 1 (by decide)
